import Mathlib

/-!
Shallow embedding of the TSP notebook `routing-part1.ipynb`
(repository `nsakkinen/intro-to-routing`).

The notebook builds a docplex MILP model for the traveling salesman
problem over `n = 5` fixed locations, with

* a cost matrix `cost[i,j] = get_distance(location[i], location[j]) / 3600`
  filled by a double loop over `range(n) x range(n)` (including the
  diagonal), whose diagonal is later overwritten in place with `1e+12`;
* binary variables `x[i,j]` for ALL ordered pairs `(i,j)` with
  `i, j in range(n)` (the diagonal pairs included);
* integer variables `u[i]` for ALL `i in range(n)` with lower bound `0`;
* constraints
  `c_1_4 : sum over all j of x[i,j] = 1` for every `i` (the sum includes
  `j = i`),
  `c_1_5 : sum over all i of x[i,j] = 1` for every `j`,
  `c_1_13 : u[i] - u[j] + n*x[i,j] <= n-1` for `i, j` ranging over
  `exclude(lbl, 0)` with `j != i`,
  `c_1_14 : u[i] <= n-1` for every `i in range(n)`;
* the objective `loss = dot(x in sorted key order, cost.flatten())`,
  minimized;
* after solving, `get_edges(x)` yields the keys whose solution value
  equals `1` exactly, and these edges are inserted into a networkx
  `DiGraph` and drawn.  No other processing of the solution exists.

Solver values are embedded as rationals, the declared-integer variables
`u` as integers.  The fallible external travel-time lookup
`get_distance` is an opaque parameter `d : ℕ → ℕ → Option ℕ` returning
whole seconds (`none` = lookup failure, which in the notebook would
raise out of the matrix-filling loop).
-/

/-- `lbl = range(len(location))` from the notebook; parametric in `n`. -/
def lbl (n : ℕ) : List ℕ := List.range n

/-- The helper `exclude(A, i) = [a for a in A if a != i]`. -/
def exclude (A : List ℕ) (i : ℕ) : List ℕ := A.filter (fun a => a ≠ i)

/-- Key set of the binary variable dict
`x = model.binary_var_dict([(i, j) for i in lbl for j in lbl])`:
all ordered pairs, the diagonal included. -/
def xKeys (n : ℕ) : List (ℕ × ℕ) :=
  (lbl n).flatMap (fun i => (lbl n).map (fun j => (i, j)))

/-- Key set of the integer variable dict
`u = model.integer_var_dict([i for i in lbl], lb=0)`: every node,
node `0` included. -/
def uKeys (n : ℕ) : List ℕ := lbl n

/-- The constraint families the notebook adds to the docplex model,
one constructor per `add_constraint` call site. -/
inductive Constr where
  | degOut (i : ℕ)
  | degIn (j : ℕ)
  | mtz (i j : ℕ)
  | uUb (i : ℕ)
deriving DecidableEq, Repr

/-- `c_1_4 = [model.add_constraint(model.sum(x[i,j] for j in lbl)==1) for i in lbl]`. -/
def c_1_4 (n : ℕ) : List Constr := (lbl n).map Constr.degOut

/-- `c_1_5 = [model.add_constraint(model.sum(x[i,j] for i in lbl)==1) for j in lbl]`. -/
def c_1_5 (n : ℕ) : List Constr := (lbl n).map Constr.degIn

/-- `c_1_13`: the MTZ constraints, generated by
`for i in exclude(lbl,0): for j in [k for k in exclude(lbl,0) if k!=i]:
  model.add_constraint(u[i]-u[j]+n*x[i,j]<=n-1)`. -/
def c_1_13 (n : ℕ) : List Constr :=
  (exclude (lbl n) 0).flatMap
    (fun i => ((exclude (lbl n) 0).filter (fun k => k ≠ i)).map (fun j => Constr.mtz i j))

/-- `c_1_14 = [model.add_constraint(u[i]<=n-1) for i in lbl]`. -/
def c_1_14 (n : ℕ) : List Constr := (lbl n).map Constr.uUb

/-- All constraints of the assembled model, in the order the notebook
adds them. -/
def modelConstraints (n : ℕ) : List Constr :=
  c_1_4 n ++ c_1_5 n ++ c_1_13 n ++ c_1_14 n

/-- Model building as performed by the notebook: declaring the variable
dicts and assembling the constraint families.  It is a total function;
the notebook contains no size check and no failure path. -/
def buildModel (n : ℕ) : List (ℕ × ℕ) × List ℕ × List Constr :=
  (xKeys n, uKeys n, modelConstraints n)

/-- Meaning of a single constraint for an assignment `xv` of the binary
variables and `uv` of the integer variables. -/
def holdsC (n : ℕ) (xv : ℕ → ℕ → ℚ) (uv : ℕ → ℤ) : Constr → Prop
  | .degOut i => ((lbl n).map (fun j => xv i j)).sum = 1
  | .degIn j => ((lbl n).map (fun i => xv i j)).sum = 1
  | .mtz i j => (uv i : ℚ) - (uv j : ℚ) + (n : ℚ) * xv i j ≤ (n : ℚ) - 1
  | .uUb i => uv i ≤ (n : ℤ) - 1

/-- Feasibility for the notebook's model: the `x` variables are binary,
the `u` variables respect their declared lower bound `0`, and every
constraint of `modelConstraints` holds. -/
def satisfiesModel (n : ℕ) (xv : ℕ → ℕ → ℚ) (uv : ℕ → ℤ) : Prop :=
  (∀ i ∈ lbl n, ∀ j ∈ lbl n, xv i j = 0 ∨ xv i j = 1) ∧
  (∀ i ∈ lbl n, 0 ≤ uv i) ∧
  (∀ c ∈ modelConstraints n, holdsC n xv uv c)

/-- The diagonal sentinel `1e+12` written by
`for i in range(n): cost[i,i]=1e+12`. -/
def sentinel : ℚ := 10 ^ 12

/-- The in-place diagonal overwrite `for i in range(n): cost[i,i]=1e+12`,
expressed as the resulting matrix (as a function). -/
def setDiag (n : ℕ) (c : ℕ → ℕ → ℚ) : ℕ → ℕ → ℚ :=
  fun i j => if i = j ∧ i < n then sentinel else c i j

/-- The objective
`loss = model.dot([x[k] for k in sorted(x.keys())], cost.flatten())`.
`sorted(x.keys())` is exactly `xKeys n` (the keys are generated in
lexicographic order), and `cost.flatten()` pairs key `(i,j)` with the
entry `cost[i,j]`, so the dot product is the sum below. -/
def loss (n : ℕ) (c : ℕ → ℕ → ℚ) (xv : ℕ → ℕ → ℚ) : ℚ :=
  ((xKeys n).map (fun k => xv k.1 k.2 * c k.1 k.2)).sum

/-- Stated from the spec (for comparison with `loss`): the objective the
specification describes, a sum restricted to the ordered pairs with
`i ≠ j`. -/
def lossNoDiag (n : ℕ) (c : ℕ → ℕ → ℚ) (xv : ℕ → ℕ → ℚ) : ℚ :=
  (((xKeys n).filter (fun k => k.1 ≠ k.2)).map (fun k => xv k.1 k.2 * c k.1 k.2)).sum

/-- The diagonal part of the objective: the self-arc terms
`x[i,i]*cost[i,i]`. -/
def lossDiag (n : ℕ) (c : ℕ → ℕ → ℚ) (xv : ℕ → ℕ → ℚ) : ℚ :=
  ((lbl n).map (fun i => xv i i * c i i)).sum

/-- An assignment is optimal when it is feasible and its objective value
is minimal among all feasible assignments. -/
def isOptimal (n : ℕ) (c : ℕ → ℕ → ℚ) (xv : ℕ → ℕ → ℚ) (uv : ℕ → ℤ) : Prop :=
  satisfiesModel n xv uv ∧
  ∀ yv vv, satisfiesModel n yv vv → loss n c xv ≤ loss n c yv

/-- Number of selected out-arcs of node `i` (self-arc included), i.e.
the out-degree of `i` in the edge set `{(i,j) : x[i,j] = 1}`. -/
def selectedOutCount (n : ℕ) (xv : ℕ → ℕ → ℚ) (i : ℕ) : ℕ :=
  ((lbl n).filter (fun j => decide (xv i j = 1))).length

/-- Number of selected in-arcs of node `j` (self-arc included). -/
def selectedInCount (n : ℕ) (xv : ℕ → ℕ → ℚ) (j : ℕ) : ℕ :=
  ((lbl n).filter (fun i => decide (xv i j = 1))).length

/-- The canonical tour `0 → 1 → ⋯ → n-1 → 0` as an assignment of the
binary variables. -/
def tourX (n : ℕ) : ℕ → ℕ → ℚ :=
  fun i j => if i < n ∧ j = (i + 1) % n then 1 else 0

/-- Rank assignment accompanying the canonical tour. -/
def tourU : ℕ → ℤ := fun i => i

/-- The arcs of the cyclic walk through the node list `l` (each node to
the next, the last node back to the first).  `arcsFrom s l` walks `l`
and closes back to `s`. -/
def arcsFrom (s : ℕ) : List ℕ → List (ℕ × ℕ)
  | [] => []
  | [b] => [(b, s)]
  | b :: c :: l => (b, c) :: arcsFrom s (c :: l)

/-- The closed arc list of a node list, read as a directed cycle. -/
def cycArcs : List ℕ → List (ℕ × ℕ)
  | [] => []
  | a :: l => arcsFrom a (a :: l)

/-- `l` is a directed cycle avoiding node `0` all of whose arcs are
selected by `xv`: a nonempty duplicate-free list of nodes of `[1,n)`
whose cyclic consecutive arcs all carry value `1`. -/
def IsSelectedCycleAvoiding0 (n : ℕ) (xv : ℕ → ℕ → ℚ) (l : List ℕ) : Prop :=
  l ≠ [] ∧ l.Nodup ∧ (∀ v ∈ l, 1 ≤ v ∧ v < n) ∧
  ∀ pq ∈ cycArcs l, xv pq.1 pq.2 = 1

/-- The arc-selection induced by a Hamiltonian visiting sequence
`p : position → node`: arc `i → j` is selected when `j` is the
successor of `i` along the sequence (cyclically). -/
def xOfSeq (n : ℕ) (p : ℕ → ℕ) : ℕ → ℕ → ℚ :=
  fun i j => if (List.range n).any (fun k => i = p k ∧ j = p ((k + 1) % n)) then 1 else 0

/-- `p` lists all `n` nodes as a cycle anchored at node `0`: position `0`
holds node `0`, positions below `n` hold nodes below `n`, without
repetition, and every node below `n` occurs. -/
def HamSeq (n : ℕ) (p : ℕ → ℕ) : Prop :=
  p 0 = 0 ∧ (∀ k, k < n → p k < n) ∧
  (∀ k₁, k₁ < n → ∀ k₂, k₂ < n → p k₁ = p k₂ → k₁ = k₂) ∧
  (∀ v, v < n → ∃ k, k < n ∧ p k = v)

/-- Position of the first index `m` below the fuel bound with `p m = v`
(scanning downward); used to invert a Hamiltonian sequence. -/
def findPre (p : ℕ → ℕ) (v : ℕ) : ℕ → ℕ
  | 0 => 0
  | m + 1 => if p m = v then m else findPre p v m

/-- `get_edges(x) = (k for k,v in x.items() if v.solution_value==1)`:
keys of the solved variable dict whose solution value equals `1`
exactly. -/
def get_edges (xs : List ((ℕ × ℕ) × ℚ)) : List (ℕ × ℕ) :=
  (xs.filter (fun kv => decide (kv.2 = 1))).map Prod.fst

/-- `G=nx.DiGraph(); G.add_edges_from(get_edges(x))`: the edge set of the
resulting directed graph (a graph stores each edge once, so duplicates
collapse). -/
def graphEdges (xs : List ((ℕ × ℕ) × ℚ)) : List (ℕ × ℕ) :=
  (get_edges xs).dedup

/-- Out-degree of `v` in an edge list. -/
def outDegE (E : List (ℕ × ℕ)) (v : ℕ) : ℕ :=
  (E.filter (fun e => decide (e.1 = v))).length

/-- In-degree of `v` in an edge list. -/
def inDegE (E : List (ℕ × ℕ)) (v : ℕ) : ℕ :=
  (E.filter (fun e => decide (e.2 = v))).length

/-- Left-to-right effectful map over `Option`, mirroring a Python loop
that aborts with an exception as soon as one lookup fails. -/
def optMap {β : Type} (f : ℕ → Option β) : List ℕ → Option (List β)
  | [] => some []
  | a :: l => (f a).bind (fun v => (optMap f l).map (fun vs => v :: vs))

/-- The cost-matrix construction
`cost=np.zeros((n,n)); for i in range(n): for j in range(n):
  cost[i,j]=get_distance(location[i],location[j])/3600`,
with the external lookup abstracted as `d` (seconds, `none` = failure).
A failing lookup anywhere in the loop aborts the whole build. -/
def costMatrix (n : ℕ) (d : ℕ → ℕ → Option ℕ) : Option (List (List ℚ)) :=
  optMap (fun i => optMap (fun j => (d i j).map (fun v : ℕ => (v : ℚ) / 3600)) (List.range n))
    (List.range n)

/-- Row-by-row worker for the in-place diagonal overwrite on the list
representation of the matrix. -/
def setDiagAux : ℕ → List (List ℚ) → List (List ℚ)
  | _, [] => []
  | i, row :: rest => row.set i sentinel :: setDiagAux (i + 1) rest

/-- `for i in range(n): cost[i,i]=1e+12` on the list representation:
row `i` gets its `i`-th entry overwritten with the sentinel. -/
def setDiagL (M : List (List ℚ)) : List (List ℚ) := setDiagAux 0 M

/-- Entry access `M[i][j]` on the list representation. -/
def entryL (M : List (List ℚ)) (i j : ℕ) : ℚ := (M.getD i []).getD j 0

/-- The rank assignment read off a Hamiltonian visiting sequence: node
`v` gets the position at which `p` visits it. -/
def uOfSeq (n : ℕ) (p : ℕ → ℕ) : ℕ → ℤ := fun v => (findPre p v n : ℤ)

/-- `uv` is a feasible rank assignment for the arc selection `xv`: it
respects the declared lower bound `0`, the upper-bound constraints
`c_1_14`, and the MTZ constraints `c_1_13`. -/
def rankFeasible (n : ℕ) (xv : ℕ → ℕ → ℚ) (uv : ℕ → ℤ) : Prop :=
  (∀ i ∈ lbl n, 0 ≤ uv i) ∧ (∀ c ∈ c_1_14 n, holdsC n xv uv c) ∧
  (∀ c ∈ c_1_13 n, holdsC n xv uv c)

/-- The identity visiting sequence (the canonical Hamiltonian cycle). -/
def idSeq : ℕ → ℕ := fun k => k

/-- Concrete assignment selecting every self-arc (`x[i,i] = 1`). -/
def diagX : ℕ → ℕ → ℚ := fun i j => if i = j then 1 else 0

/-- The all-zero rank assignment. -/
def zeroU : ℕ → ℤ := fun _ => 0

/-- Concrete assignment for `n = 3`: the self-arc at node `1` plus the
2-cycle `0 → 2 → 0`. -/
def selfX3 : ℕ → ℕ → ℚ :=
  fun i j => if (i = 1 ∧ j = 1) ∨ (i = 0 ∧ j = 2) ∨ (i = 2 ∧ j = 0) then 1 else 0

/-- Concrete `3 × 3` base cost matrix (before the diagonal overwrite):
every arc touching node `1` costs `sentinel - 1`, the arcs between `0`
and `2` cost `0`. -/
def advCost : ℕ → ℕ → ℚ := fun i j => if i = 1 ∨ j = 1 then sentinel - 1 else 0

/-- A solved variable item list with one fractional value close to `1`. -/
def xsFrac : List ((ℕ × ℕ) × ℚ) := [((0, 1), 999 / 1000)]

/-- A solved variable item list whose selected edges violate
in-degree = out-degree = 1 (node `0` has two outgoing edges). -/
def xsBad : List ((ℕ × ℕ) × ℚ) := [((0, 1), 1), ((0, 2), 1), ((1, 0), 1)]

/-- A constant external travel-time lookup: every query succeeds and
returns 3600 seconds. -/
def dConst : ℕ → ℕ → Option ℕ := fun _ _ => some 3600

/-- An external travel-time lookup that always fails. -/
def dNone : ℕ → ℕ → Option ℕ := fun _ _ => none

/-- A base cost matrix in which every pair costs `1` hour. -/
def oneCost : ℕ → ℕ → ℚ := fun _ _ => 1

/-! ### List utilities -/

lemma sum_map_split (L : List ℕ) (f : ℕ → ℚ) (p : ℕ → Bool) :
    ((L.filter p).map f).sum + ((L.filter (fun a => !(p a))).map f).sum = (L.map f).sum := by
  induction L with
  | nil => simp
  | cons a l ih =>
    by_cases h : p a <;> simp [List.filter_cons, h] <;> linarith [ih]

lemma sum_indicator_zero (L : List ℕ) (t : ℕ) (g : ℕ → ℚ) (h : ∀ j ∈ L, j ≠ t) :
    (L.map (fun j => if j = t then g j else 0)).sum = 0 := by
  induction L with
  | nil => simp
  | cons a l ih =>
    have ha : a ≠ t := h a (by simp)
    simp [ha, ih (fun j hj => h j (by simp [hj]))]

lemma sum_indicator (n t : ℕ) (g : ℕ → ℚ) (h : t < n) :
    ((List.range n).map (fun j => if j = t then g j else 0)).sum = g t := by
  induction n with
  | zero => omega
  | succ m ih =>
    rw [List.range_succ]
    rcases Nat.lt_or_ge t m with h' | h'
    · have : m ≠ t := by omega
      simp [this, ih h']
    · have : t = m := by omega
      subst this
      rw [List.map_append, List.sum_append]
      simp [sum_indicator_zero (List.range t) t g (by intro j hj; simp at hj; omega)]

lemma sum_count_of_binary (L : List ℕ) (f : ℕ → ℚ) (h : ∀ a ∈ L, f a = 0 ∨ f a = 1) :
    (L.map f).sum = ((L.filter (fun a => decide (f a = 1))).length : ℚ) := by
  induction L with
  | nil => simp
  | cons a l ih =>
    have hl := ih (fun b hb => h b (by simp [hb]))
    rcases h a (by simp) with h0 | h1
    · have : ¬ (f a = 1) := by rw [h0]; norm_num
      simp [List.filter_cons, this, h0, hl]
    · simp [List.filter_cons, h1, hl]
      ring

lemma sum_map_flatMap (L : List ℕ) (g : ℕ → List (ℕ × ℕ)) (f : ℕ × ℕ → ℚ) :
    ((L.flatMap g).map f).sum = (L.map (fun a => ((g a).map f).sum)).sum := by
  induction L with
  | nil => simp
  | cons a l ih => simp [List.flatMap_cons, ih]

/-! ### Structure of the generated constraint lists -/

lemma mem_xKeys (n i j : ℕ) : (i, j) ∈ xKeys n ↔ i < n ∧ j < n := by
  simp [xKeys, lbl, List.mem_flatMap]

lemma mem_exclude0 (n i : ℕ) : i ∈ exclude (lbl n) 0 ↔ i < n ∧ i ≠ 0 := by
  simp [exclude, lbl]

lemma degOut_mem (n i : ℕ) (h : i < n) : Constr.degOut i ∈ modelConstraints n := by
  simp [modelConstraints, c_1_4, lbl, h]

lemma degIn_mem (n j : ℕ) (h : j < n) : Constr.degIn j ∈ modelConstraints n := by
  simp [modelConstraints, c_1_5, lbl, h]

lemma uUb_mem (n i : ℕ) (h : i < n) : Constr.uUb i ∈ modelConstraints n := by
  simp [modelConstraints, c_1_14, lbl, h]

lemma mtz_mem (n i j : ℕ) (hi : 1 ≤ i) (hi' : i < n) (hj : 1 ≤ j) (hj' : j < n)
    (hij : i ≠ j) : Constr.mtz i j ∈ modelConstraints n := by
  have : Constr.mtz i j ∈ c_1_13 n := by
    simp only [c_1_13, List.mem_flatMap, List.mem_map, List.mem_filter]
    exact ⟨i, (mem_exclude0 n i).2 ⟨hi', by omega⟩,
      j, ⟨(mem_exclude0 n j).2 ⟨hj', by omega⟩, by simp [Ne.symm hij]⟩, rfl⟩
  simp [modelConstraints, this]

lemma mem_c_1_13 (n : ℕ) (c : Constr) (h : c ∈ c_1_13 n) :
    ∃ i j, c = Constr.mtz i j ∧ 1 ≤ i ∧ i < n ∧ 1 ≤ j ∧ j < n ∧ i ≠ j := by
  simp only [c_1_13, List.mem_flatMap, List.mem_map, List.mem_filter] at h
  obtain ⟨i, hi, j, ⟨hj, hji⟩, rfl⟩ := h
  rw [mem_exclude0] at hi hj
  refine ⟨i, j, rfl, by omega, hi.1, by omega, hj.1, ?_⟩
  simp at hji
  omega

/-! ### Accessing the constraints of a feasible assignment -/

lemma feasible_degOut (n : ℕ) (xv : ℕ → ℕ → ℚ) (uv : ℕ → ℤ)
    (h : satisfiesModel n xv uv) (i : ℕ) (hi : i < n) :
    ((List.range n).map (fun j => xv i j)).sum = 1 :=
  h.2.2 (Constr.degOut i) (degOut_mem n i hi)

lemma feasible_degIn (n : ℕ) (xv : ℕ → ℕ → ℚ) (uv : ℕ → ℤ)
    (h : satisfiesModel n xv uv) (j : ℕ) (hj : j < n) :
    ((List.range n).map (fun i => xv i j)).sum = 1 :=
  h.2.2 (Constr.degIn j) (degIn_mem n j hj)

lemma feasible_mtz (n : ℕ) (xv : ℕ → ℕ → ℚ) (uv : ℕ → ℤ)
    (h : satisfiesModel n xv uv) (i j : ℕ) (hi : 1 ≤ i) (hi' : i < n)
    (hj : 1 ≤ j) (hj' : j < n) (hij : i ≠ j) :
    (uv i : ℚ) - (uv j : ℚ) + (n : ℚ) * xv i j ≤ (n : ℚ) - 1 :=
  h.2.2 (Constr.mtz i j) (mtz_mem n i j hi hi' hj hj' hij)

lemma feasible_binary (n : ℕ) (xv : ℕ → ℕ → ℚ) (uv : ℕ → ℤ)
    (h : satisfiesModel n xv uv) (i j : ℕ) (hi : i < n) (hj : j < n) :
    xv i j = 0 ∨ xv i j = 1 :=
  h.1 i (by simpa [lbl] using hi) j (by simpa [lbl] using hj)

lemma feasible_x_nonneg (n : ℕ) (xv : ℕ → ℕ → ℚ) (uv : ℕ → ℤ)
    (h : satisfiesModel n xv uv) (i j : ℕ) (hi : i < n) (hj : j < n) :
    0 ≤ xv i j := by
  rcases feasible_binary n xv uv h i j hi hj with h' | h' <;> simp [h']

/-! ### Feasibility of the canonical tour `0 → 1 → ⋯ → n-1 → 0` -/

lemma succ_mod_lt (n i : ℕ) (h : 0 < n) : (i + 1) % n < n := Nat.mod_lt _ h

lemma succ_mod_eq_iff (n i j : ℕ) (hi : i < n) (hj : j < n) :
    j = (i + 1) % n ↔ i = (if j = 0 then n - 1 else j - 1) := by
  rcases Nat.lt_or_ge (i + 1) n with h | h
  · rw [Nat.mod_eq_of_lt h]
    split <;> omega
  · have h1 : i + 1 = n := by omega
    rw [h1, Nat.mod_self]
    split <;> omega

lemma tour_degOut (n i : ℕ) (hi : i < n) :
    ((List.range n).map (fun j => tourX n i j)).sum = 1 := by
  have he : ∀ j ∈ List.range n,
      tourX n i j = if j = (i + 1) % n then (fun _ => (1:ℚ)) j else 0 := by
    intro j _
    simp [tourX, hi]
  rw [List.map_congr_left he, sum_indicator n _ _ (succ_mod_lt n i (by omega))]

lemma tour_degIn (n j : ℕ) (hj : j < n) :
    ((List.range n).map (fun i => tourX n i j)).sum = 1 := by
  have he : ∀ i ∈ List.range n, tourX n i j
      = if i = (if j = 0 then n - 1 else j - 1) then (fun _ => (1:ℚ)) i else 0 := by
    intro i hi
    simp only [List.mem_range] at hi
    simp only [tourX, hi, true_and]
    rw [if_congr (succ_mod_eq_iff n i j hi hj) rfl rfl]
  rw [List.map_congr_left he, sum_indicator n _ _ (by split <;> omega)]

lemma tour_feasible (n : ℕ) : satisfiesModel n (tourX n) tourU := by
  refine ⟨?_, ?_, ?_⟩
  · intro i _ j _
    by_cases h : i < n ∧ j = (i + 1) % n
    · right; simp [tourX, h]
    · left; simp [tourX, h]
  · intro i _
    simp [tourU]
  · intro c hc
    simp only [modelConstraints, List.mem_append] at hc
    rcases hc with ((hc | hc) | hc) | hc
    · simp only [c_1_4, List.mem_map] at hc
      obtain ⟨i, hi, rfl⟩ := hc
      simp only [lbl, List.mem_range] at hi
      simpa [holdsC, lbl] using tour_degOut n i hi
    · simp only [c_1_5, List.mem_map] at hc
      obtain ⟨j, hj, rfl⟩ := hc
      simp only [lbl, List.mem_range] at hj
      simpa [holdsC, lbl] using tour_degIn n j hj
    · obtain ⟨i, j, rfl, hi1, hi, hj1, hj, hij⟩ := mem_c_1_13 n _ hc
      simp only [holdsC, tourU]
      by_cases h : j = (i + 1) % n
      · have hin : i + 1 < n := by
          rcases Nat.lt_or_ge (i + 1) n with h' | h'
          · exact h'
          · have : i + 1 = n := by omega
            rw [this, Nat.mod_self] at h
            omega
        rw [Nat.mod_eq_of_lt hin] at h
        subst h
        have : tourX n i (i + 1) = 1 := by simp [tourX, hi, Nat.mod_eq_of_lt hin]
        rw [this]
        push_cast
        ring_nf
        linarith
      · have : tourX n i j = 0 := by simp [tourX, h]
        rw [this]
        have hiq : (i : ℚ) + 1 ≤ n := by exact_mod_cast hi
        have hjq : (1 : ℚ) ≤ j := by exact_mod_cast hj1
        push_cast
        linarith
    · simp only [c_1_14, List.mem_map] at hc
      obtain ⟨i, hi, rfl⟩ := hc
      simp only [lbl, List.mem_range] at hi
      simp only [holdsC, tourU]
      omega

/-! ### Decomposing and bounding the objective -/

lemma sum_map_split_pairs (L : List (ℕ × ℕ)) (f : ℕ × ℕ → ℚ) (p : ℕ × ℕ → Bool) :
    ((L.filter p).map f).sum + ((L.filter (fun a => !(p a))).map f).sum = (L.map f).sum := by
  induction L with
  | nil => simp
  | cons a l ih =>
    by_cases h : p a
    · simp [List.filter_cons, h]
      linarith [ih]
    · simp [List.filter_cons, h]
      linarith [ih]

lemma filter_flatMap_comm (L : List ℕ) (g : ℕ → List (ℕ × ℕ)) (p : ℕ × ℕ → Bool) :
    (L.flatMap g).filter p = L.flatMap (fun a => (g a).filter p) := by
  induction L with
  | nil => simp
  | cons a l ih => simp [List.flatMap_cons, List.filter_append, ih]

lemma range_filter_eq (n t : ℕ) (h : t < n) :
    (List.range n).filter (fun j => decide (t = j)) = [t] := by
  induction n with
  | zero => omega
  | succ m ih =>
    rw [List.range_succ, List.filter_append]
    rcases Nat.lt_or_ge t m with h' | h'
    · have : ¬ (t = m) := by omega
      simp [ih h', this]
    · have ht : t = m := by omega
      subst ht
      have : (List.range t).filter (fun j => decide (t = j)) = [] := by
        rw [List.filter_eq_nil_iff]
        intro a ha
        simp only [List.mem_range] at ha
        simp
        omega
      simp [this]

lemma loss_eq_rows (n : ℕ) (c xv : ℕ → ℕ → ℚ) :
    loss n c xv
      = ((List.range n).map (fun i => ((List.range n).map (fun j => xv i j * c i j)).sum)).sum := by
  simp [loss, xKeys, lbl, sum_map_flatMap, List.map_map, Function.comp_def]

lemma loss_split (n : ℕ) (c xv : ℕ → ℕ → ℚ) :
    loss n c xv = lossNoDiag n c xv + lossDiag n c xv := by
  have hsplit := sum_map_split_pairs (xKeys n) (fun k => xv k.1 k.2 * c k.1 k.2)
    (fun k => decide (k.1 ≠ k.2))
  have h1 : lossNoDiag n c xv
      = (((xKeys n).filter (fun k => decide (k.1 ≠ k.2))).map
          (fun k => xv k.1 k.2 * c k.1 k.2)).sum := rfl
  have h2 : ((xKeys n).filter (fun k => !(decide (k.1 ≠ k.2)))) 
      = ((xKeys n).filter (fun k => decide (k.1 = k.2))) := by
    apply List.filter_congr
    intro a _
    simp [decide_not]
  have h3 : (((xKeys n).filter (fun k => decide (k.1 = k.2))).map
      (fun k => xv k.1 k.2 * c k.1 k.2)).sum = lossDiag n c xv := by
    rw [xKeys, filter_flatMap_comm, lossDiag]
    have hrow : ∀ i ∈ lbl n,
        ((lbl n).map (fun j => (i, j))).filter (fun k => decide (k.1 = k.2))
          = [(i, i)] := by
      intro i hi
      simp only [lbl, List.mem_range] at hi
      rw [List.filter_map]
      have : ((List.range n).filter (fun j => decide (i = j))) = [i] :=
        range_filter_eq n i hi
      simp only [lbl, Function.comp_def]
      rw [this]
      simp
    rw [List.flatMap_congr hrow]
    have : ∀ i ∈ lbl n, True := fun _ _ => trivial
    clear this
    induction (lbl n) with
    | nil => simp
    | cons a l ih => simp_all [List.flatMap_cons]
  rw [loss, ← hsplit, h1, h2, h3]

lemma loss_term_le (n : ℕ) (c xv : ℕ → ℕ → ℚ)
    (hc : ∀ i j, i < n → j < n → 0 ≤ c i j)
    (hx : ∀ i j, i < n → j < n → 0 ≤ xv i j)
    (i j : ℕ) (hi : i < n) (hj : j < n) :
    xv i j * c i j ≤ loss n c xv := by
  apply List.single_le_sum
  · intro q hq
    simp only [List.mem_map] at hq
    obtain ⟨k, hk, rfl⟩ := hq
    obtain ⟨hk1, hk2⟩ := (mem_xKeys n k.1 k.2).1 (by simpa using hk)
    exact mul_nonneg (hx _ _ hk1 hk2) (hc _ _ hk1 hk2)
  · exact List.mem_map_of_mem _ ((mem_xKeys n i j).2 ⟨hi, hj⟩)

lemma succ_mod_ne_self (n i : ℕ) (hn : 2 ≤ n) (hi : i < n) : (i + 1) % n ≠ i := by
  rcases Nat.lt_or_ge (i + 1) n with h | h
  · rw [Nat.mod_eq_of_lt h]
    omega
  · have : i + 1 = n := by omega
    rw [this, Nat.mod_self]
    omega

lemma loss_tour_le (n : ℕ) (c : ℕ → ℕ → ℚ) (B : ℚ) (hn : 2 ≤ n)
    (hB : ∀ i j, i < n → j < n → i ≠ j → c i j ≤ B) :
    loss n (setDiag n c) (tourX n) ≤ (n : ℚ) * B := by
  rw [loss_eq_rows]
  have hrow : ∀ i ∈ List.range n,
      ((List.range n).map (fun j => tourX n i j * setDiag n c i j)).sum
        ≤ (fun _ => B) i := by
    intro i hi
    simp only [List.mem_range] at hi
    have he : ∀ j ∈ List.range n, tourX n i j * setDiag n c i j
        = if j = (i + 1) % n then (fun j => setDiag n c i j) j else 0 := by
      intro j _
      by_cases h : j = (i + 1) % n
      · simp [tourX, hi, h]
      · simp [tourX, h]
    rw [List.map_congr_left he, sum_indicator n _ _ (succ_mod_lt n i (by omega))]
    have hne : (i + 1) % n ≠ i := succ_mod_ne_self n i hn hi
    have hd : setDiag n c i ((i + 1) % n) = c i ((i + 1) % n) := by
      simp only [setDiag]
      rw [if_neg]
      intro hcon
      exact hne hcon.1.symm
    rw [hd]
    exact hB i _ hi (succ_mod_lt n i (by omega)) (fun h => hne h.symm)
  calc ((List.range n).map (fun i =>
          ((List.range n).map (fun j => tourX n i j * setDiag n c i j)).sum)).sum
      ≤ ((List.range n).map (fun _ => B)).sum := List.sum_le_sum hrow
    _ = (n : ℚ) * B := by
        rw [List.map_const', List.sum_replicate]
        simp [nsmul_eq_mul]

/-! ### MTZ constraints versus cycles avoiding node 0 -/

lemma arcsFrom_mem (s : ℕ) :
    ∀ (L : List ℕ) (p q : ℕ), (p, q) ∈ arcsFrom s L → p ∈ L ∧ (q ∈ L ∨ q = s) := by
  intro L
  induction L with
  | nil => intro p q h; simp [arcsFrom] at h
  | cons b L ih =>
    intro p q h
    match L, h with
    | [], h => simp [arcsFrom] at h; simp [h]
    | c :: L', h =>
      rw [arcsFrom] at h
      rcases List.mem_cons.1 h with h' | h'
      · have : p = b ∧ q = c := by simpa using h'
        simp [this.1, this.2]
      · obtain ⟨h1, h2⟩ := ih p q h'
        refine ⟨List.mem_cons_of_mem _ h1, ?_⟩
        rcases h2 with h2 | h2
        · exact Or.inl (List.mem_cons_of_mem _ h2)
        · exact Or.inr h2

lemma cycArcs_mem (a : ℕ) (L : List ℕ) (p q : ℕ) (h : (p, q) ∈ cycArcs (a :: L)) :
    p ∈ a :: L ∧ q ∈ a :: L := by
  rw [cycArcs] at h
  obtain ⟨h1, h2⟩ := arcsFrom_mem a (a :: L) p q h
  refine ⟨h1, ?_⟩
  rcases h2 with h2 | h2
  · exact h2
  · simp [h2]

lemma arcs_chain (uv : ℕ → ℤ) (s : ℕ) :
    ∀ (L : List ℕ) (b : ℕ),
      (∀ pq ∈ arcsFrom s (b :: L), pq.1 ≠ pq.2 → uv pq.1 < uv pq.2) →
      (b :: L).Nodup → s ∉ (b :: L) → uv b < uv s := by
  intro L
  induction L with
  | nil =>
    intro b h _ hs
    have hbs : b ≠ s := by intro hc; exact hs (by simp [hc])
    exact h (b, s) (by simp [arcsFrom]) hbs
  | cons c L' ih =>
    intro b h hnd hs
    have hbc : b ≠ c := by
      intro hc
      rw [List.nodup_cons] at hnd
      exact hnd.1 (by simp [hc])
    have h1 : uv b < uv c := h (b, c) (by rw [arcsFrom]; simp) hbc
    have h2 : uv c < uv s := by
      apply ih c
      · intro pq hpq hne
        exact h pq (by rw [arcsFrom]; exact List.mem_cons_of_mem _ hpq) hne
      · exact (List.nodup_cons.1 hnd).2
      · intro hc
        exact hs (List.mem_cons_of_mem _ hc)
    exact lt_trans h1 h2

lemma mtz_strict (n : ℕ) (xv : ℕ → ℕ → ℚ) (uv : ℕ → ℤ)
    (hfeas : satisfiesModel n xv uv) (p q : ℕ) (hp1 : 1 ≤ p) (hp : p < n)
    (hq1 : 1 ≤ q) (hq : q < n) (hpq : p ≠ q) (hsel : xv p q = 1) :
    uv p < uv q := by
  have h := feasible_mtz n xv uv hfeas p q hp1 hp hq1 hq hpq
  rw [hsel, mul_one] at h
  have : (uv p : ℚ) < uv q := by linarith
  exact_mod_cast this

lemma no_selected_cycle_of_length_ge_two (n : ℕ) (xv : ℕ → ℕ → ℚ) (uv : ℕ → ℤ)
    (hfeas : satisfiesModel n xv uv) (l : List ℕ) (hlen : 2 ≤ l.length)
    (hcyc : IsSelectedCycleAvoiding0 n xv l) : False := by
  obtain ⟨hne, hnd, hmem, hsel⟩ := hcyc
  match l, hlen with
  | a :: b :: L, _ =>
    have harcs : ∀ pq ∈ cycArcs (a :: b :: L), pq.1 ≠ pq.2 → uv pq.1 < uv pq.2 := by
      intro pq hpq hne'
      obtain ⟨hp, hq⟩ := cycArcs_mem a (b :: L) pq.1 pq.2 (by simpa using hpq)
      obtain ⟨hp1, hpn⟩ := hmem pq.1 hp
      obtain ⟨hq1, hqn⟩ := hmem pq.2 hq
      exact mtz_strict n xv uv hfeas pq.1 pq.2 hp1 hpn hq1 hqn hne' (hsel pq hpq)
    have hcyceq : cycArcs (a :: b :: L) = (a, b) :: arcsFrom a (b :: L) := by
      rw [cycArcs, arcsFrom]
    have hab : a ≠ b := by
      rw [List.nodup_cons] at hnd
      intro hc
      exact hnd.1 (by simp [hc])
    have h1 : uv a < uv b :=
      harcs (a, b) (by rw [hcyceq]; simp) hab
    have h2 : uv b < uv a := by
      apply arcs_chain uv a (b :: L).tail b
      · intro pq hpq hne'
        exact harcs pq (by rw [hcyceq]; exact List.mem_cons_of_mem _ (by simpa using hpq)) hne'
      · exact (List.nodup_cons.1 hnd).2
      · exact (List.nodup_cons.1 hnd).1
    omega

/-! ### Rank assignments for Hamiltonian visiting sequences -/

lemma findPre_spec (p : ℕ → ℕ) (v : ℕ) :
    ∀ n, (∃ k, k < n ∧ p k = v) → p (findPre p v n) = v ∧ findPre p v n < n := by
  intro n
  induction n with
  | zero => intro h; omega
  | succ m ih =>
    intro h
    rw [findPre]
    by_cases hm : p m = v
    · simp [hm]
    · rw [if_neg hm]
      obtain ⟨k, hk, hpk⟩ := h
      have hkm : k < m := by
        rcases Nat.lt_or_ge k m with h' | h'
        · exact h'
        · exfalso; have : k = m := by omega
          exact hm (this ▸ hpk)
      obtain ⟨h1, h2⟩ := ih ⟨k, hkm, hpk⟩
      exact ⟨h1, by omega⟩

lemma findPre_eq (n : ℕ) (p : ℕ → ℕ)
    (hinj : ∀ k₁, k₁ < n → ∀ k₂, k₂ < n → p k₁ = p k₂ → k₁ = k₂)
    (k : ℕ) (hk : k < n) : findPre p (p k) n = k := by
  obtain ⟨h1, h2⟩ := findPre_spec p (p k) n ⟨k, hk, rfl⟩
  exact hinj _ h2 _ hk h1

lemma xOfSeq_eq_one (n : ℕ) (p : ℕ → ℕ) (i j : ℕ)
    (h : ∃ k, k < n ∧ i = p k ∧ j = p ((k + 1) % n)) : xOfSeq n p i j = 1 := by
  rw [xOfSeq, if_pos]
  obtain ⟨k, hk, h1, h2⟩ := h
  rw [List.any_eq_true]
  exact ⟨k, by simp [hk], by simp [h1, h2]⟩

lemma xOfSeq_eq_zero (n : ℕ) (p : ℕ → ℕ) (i j : ℕ)
    (h : ¬ ∃ k, k < n ∧ i = p k ∧ j = p ((k + 1) % n)) : xOfSeq n p i j = 0 := by
  rw [xOfSeq, if_neg]
  intro hc
  rw [List.any_eq_true] at hc
  obtain ⟨k, hk, hkeq⟩ := hc
  simp only [List.mem_range] at hk
  simp only [decide_eq_true_eq] at hkeq
  exact h ⟨k, hk, hkeq⟩

lemma hamSeq_rankFeasible (n : ℕ) (p : ℕ → ℕ) (hn : 1 ≤ n) (hham : HamSeq n p) :
    rankFeasible n (xOfSeq n p) (uOfSeq n p) := by
  obtain ⟨hp0, hplt, hpinj, hpsurj⟩ := hham
  refine ⟨?_, ?_, ?_⟩
  · intro i _
    simp [uOfSeq]
  · intro c hc
    simp only [c_1_14, List.mem_map] at hc
    obtain ⟨i, hi, rfl⟩ := hc
    simp only [lbl, List.mem_range] at hi
    simp only [holdsC, uOfSeq]
    have := (findPre_spec p i n (hpsurj i hi)).2
    omega
  · intro c hc
    obtain ⟨i, j, rfl, hi1, hin, hj1, hjn, hij⟩ := mem_c_1_13 n c hc
    simp only [holdsC, uOfSeq]
    by_cases hsel : ∃ k, k < n ∧ i = p k ∧ j = p ((k + 1) % n)
    · obtain ⟨k, hk, hik, hjk⟩ := hsel
      have hx1 : xOfSeq n p i j = 1 := xOfSeq_eq_one n p i j ⟨k, hk, hik, hjk⟩
      have hkn : k + 1 < n := by
        rcases Nat.lt_or_ge (k + 1) n with h' | h'
        · exact h'
        · exfalso
          have : k + 1 = n := by omega
          rw [this, Nat.mod_self] at hjk
          rw [hjk, hp0] at hj1
          omega
      rw [Nat.mod_eq_of_lt hkn] at hjk
      have hui : findPre p i n = k := by rw [hik]; exact findPre_eq n p hpinj k hk
      have huj : findPre p j n = k + 1 := by rw [hjk]; exact findPre_eq n p hpinj (k + 1) hkn
      rw [hx1, hui, huj]
      push_cast
      ring_nf
      linarith
    · have hx0 : xOfSeq n p i j = 0 := xOfSeq_eq_zero n p i j hsel
      rw [hx0, mul_zero, add_zero]
      have h1 : findPre p i n < n := (findPre_spec p i n (hpsurj i hin)).2
      have h2 : (0 : ℤ) ≤ findPre p j n := by positivity
      have h1q : ((findPre p i n : ℤ) : ℚ) ≤ (n : ℚ) - 1 := by
        have : (findPre p i n : ℤ) ≤ (n : ℤ) - 1 := by omega
        exact_mod_cast this
      have h2q : (0 : ℚ) ≤ ((findPre p j n : ℤ) : ℚ) := by exact_mod_cast h2
      linarith

lemma idSeq_ham (n : ℕ) : HamSeq n idSeq := by
  refine ⟨rfl, fun k hk => hk, fun k₁ _ k₂ _ h => h, fun v hv => ⟨v, hv, rfl⟩⟩

/-! ### Cost-matrix construction and the diagonal overwrite -/

lemma optMap_some_elim {β : Type} (f : ℕ → Option β) (a : ℕ) (l : List ℕ) (vs : List β)
    (h : optMap f (a :: l) = some vs) :
    ∃ v vs', f a = some v ∧ optMap f l = some vs' ∧ vs = v :: vs' := by
  rw [optMap] at h
  cases hfa : f a with
  | none => rw [hfa] at h; simp at h
  | some v =>
    rw [hfa] at h
    cases hrest : optMap f l with
    | none => rw [hrest] at h; simp at h
    | some vs' =>
      rw [hrest] at h
      simp at h
      exact ⟨v, vs', rfl, rfl, h.symm⟩

lemma optMap_some_length {β : Type} (f : ℕ → Option β) :
    ∀ (l : List ℕ) (vs : List β), optMap f l = some vs → vs.length = l.length := by
  intro l
  induction l with
  | nil => intro vs h; simp [optMap] at h; simp [← h]
  | cons a l ih =>
    intro vs h
    obtain ⟨v, vs', _, h2, rfl⟩ := optMap_some_elim f a l vs h
    simp [ih vs' h2]

lemma optMap_some_get {β : Type} (dβ : β) (f : ℕ → Option β) :
    ∀ (l : List ℕ) (vs : List β), optMap f l = some vs →
      ∀ k, k < l.length → ∃ w, f (l.getD k 0) = some w ∧ vs.getD k dβ = w := by
  intro l
  induction l with
  | nil => intro vs _ k hk; simp at hk
  | cons a l ih =>
    intro vs h k hk
    obtain ⟨v, vs', h1, h2, rfl⟩ := optMap_some_elim f a l vs h
    cases k with
    | zero => exact ⟨v, by simpa using h1, rfl⟩
    | succ m =>
      simp only [List.length_cons] at hk
      obtain ⟨w, hw1, hw2⟩ := ih vs' h2 m (by omega)
      exact ⟨w, by simpa using hw1, by simpa using hw2⟩

lemma optMap_none_of_mem {β : Type} (f : ℕ → Option β) :
    ∀ (l : List ℕ) (a : ℕ), a ∈ l → f a = none → optMap f l = none := by
  intro l
  induction l with
  | nil => intro a h; simp at h
  | cons b l ih =>
    intro a h hfa
    rcases List.mem_cons.1 h with rfl | h'
    · rw [optMap, hfa]; rfl
    · rw [optMap, ih a h' hfa]
      cases f b <;> rfl

lemma getD_range (n i : ℕ) (h : i < n) : (List.range n).getD i 0 = i := by
  simp [List.getD, List.getElem?_range, h]

lemma getD_set_eq (l : List ℚ) (i : ℕ) (a : ℚ) (h : i < l.length) :
    (l.set i a).getD i 0 = a := by
  rw [List.getD, List.get?_eq_getElem?, List.getElem?_set]
  simp [h]

lemma getD_set_ne (l : List ℚ) (i j : ℕ) (a : ℚ) (h : i ≠ j) :
    (l.set i a).getD j 0 = l.getD j 0 := by
  rw [List.getD, List.get?_eq_getElem?, List.getElem?_set, if_neg h, List.getD,
    List.get?_eq_getElem?]

lemma costMatrix_length (n : ℕ) (d : ℕ → ℕ → Option ℕ) (M : List (List ℚ))
    (h : costMatrix n d = some M) : M.length = n := by
  have := optMap_some_length _ _ _ h
  simpa using this

lemma costMatrix_row (n : ℕ) (d : ℕ → ℕ → Option ℕ) (M : List (List ℚ))
    (h : costMatrix n d = some M) (i : ℕ) (hi : i < n) :
    optMap (fun j => (d i j).map (fun v : ℕ => (v : ℚ) / 3600)) (List.range n)
      = some (M.getD i []) := by
  obtain ⟨w, hw1, hw2⟩ := optMap_some_get ([] : List ℚ) _ _ _ h i (by simpa using hi)
  rw [getD_range n i hi] at hw1
  rw [hw2]
  exact hw1

lemma costMatrix_rowLength (n : ℕ) (d : ℕ → ℕ → Option ℕ) (M : List (List ℚ))
    (h : costMatrix n d = some M) (i : ℕ) (hi : i < n) :
    (M.getD i []).length = n := by
  have := optMap_some_length _ _ _ (costMatrix_row n d M h i hi)
  simpa using this

lemma costMatrix_entry (n : ℕ) (d : ℕ → ℕ → Option ℕ) (M : List (List ℚ))
    (h : costMatrix n d = some M) (i j : ℕ) (hi : i < n) (hj : j < n) :
    ∃ v, d i j = some v ∧ entryL M i j = (v : ℚ) / 3600 := by
  have hrow := costMatrix_row n d M h i hi
  obtain ⟨w, hw1, hw2⟩ := optMap_some_get (0 : ℚ) _ _ _ hrow j (by simpa using hj)
  rw [getD_range n j hj] at hw1
  rw [Option.map_eq_some'] at hw1
  obtain ⟨v, hv1, hv2⟩ := hw1
  exact ⟨v, hv1, by rw [entryL, hw2, ← hv2]⟩

lemma costMatrix_abort (n : ℕ) (d : ℕ → ℕ → Option ℕ) (i : ℕ) (hi : i < n)
    (hd : d i i = none) : costMatrix n d = none := by
  apply optMap_none_of_mem _ (List.range n) i (by simpa using hi)
  apply optMap_none_of_mem _ (List.range n) i (by simpa using hi)
  rw [hd]
  rfl

lemma setDiagAux_getD :
    ∀ (M : List (List ℚ)) (k i : ℕ),
      (setDiagAux k M).getD i [] = (M.getD i []).set (k + i) sentinel := by
  intro M
  induction M with
  | nil => intro k i; simp [setDiagAux]
  | cons r rest ih =>
    intro k i
    cases i with
    | zero => simp [setDiagAux]
    | succ m =>
      simp only [setDiagAux, List.getD_cons_succ]
      rw [ih (k + 1) m]
      congr 1
      omega

lemma setDiagL_diag (M : List (List ℚ)) (i : ℕ) (hlen : i < (M.getD i []).length) :
    entryL (setDiagL M) i i = sentinel := by
  rw [entryL, setDiagL, setDiagAux_getD M 0 i, Nat.zero_add]
  exact getD_set_eq _ i sentinel hlen

lemma setDiagL_offdiag (M : List (List ℚ)) (i j : ℕ) (hij : i ≠ j) :
    entryL (setDiagL M) i j = entryL M i j := by
  rw [entryL, setDiagL, setDiagAux_getD M 0 i, Nat.zero_add, entryL]
  exact getD_set_ne _ i j sentinel hij

/-! ### Concrete feasible assignments -/

lemma range2_eq : List.range 2 = [0, 1] := rfl

lemma range3_eq : List.range 3 = [0, 1, 2] := rfl

lemma modelConstraints2_eq :
    modelConstraints 2 = [Constr.degOut 0, Constr.degOut 1, Constr.degIn 0,
      Constr.degIn 1, Constr.uUb 0, Constr.uUb 1] := by decide

lemma modelConstraints3_eq :
    modelConstraints 3 = [Constr.degOut 0, Constr.degOut 1, Constr.degOut 2,
      Constr.degIn 0, Constr.degIn 1, Constr.degIn 2,
      Constr.mtz 1 2, Constr.mtz 2 1,
      Constr.uUb 0, Constr.uUb 1, Constr.uUb 2] := by decide

lemma diagX_feasible : satisfiesModel 2 diagX zeroU := by
  refine ⟨?_, ?_, ?_⟩
  · intro i _ j _
    by_cases h : i = j <;> simp [diagX, h]
  · intro i _
    simp [zeroU]
  · rw [modelConstraints2_eq]
    simp [List.forall_mem_cons, holdsC, lbl, range2_eq, diagX, zeroU]

lemma tourX2_feasible : satisfiesModel 2 (tourX 2) zeroU := by
  refine ⟨?_, ?_, ?_⟩
  · intro i _ j _
    by_cases h : i < 2 ∧ j = (i + 1) % 2 <;> simp [tourX, h]
  · intro i _
    simp [zeroU]
  · rw [modelConstraints2_eq]
    simp [List.forall_mem_cons, holdsC, lbl, range2_eq, tourX, zeroU]

lemma selfX3_feasible : satisfiesModel 3 selfX3 zeroU := by
  refine ⟨?_, ?_, ?_⟩
  · intro i _ j _
    by_cases h : (i = 1 ∧ j = 1) ∨ (i = 0 ∧ j = 2) ∨ (i = 2 ∧ j = 0) <;> simp [selfX3, h]
  · intro i _
    simp [zeroU]
  · rw [modelConstraints3_eq]
    simp [List.forall_mem_cons, holdsC, lbl, range3_eq, selfX3, zeroU]

lemma xKeys3_eq :
    xKeys 3 = [(0,0),(0,1),(0,2),(1,0),(1,1),(1,2),(2,0),(2,1),(2,2)] := rfl

lemma selfX3_loss : loss 3 (setDiag 3 advCost) selfX3 = sentinel := by
  rw [loss, xKeys3_eq]
  norm_num [selfX3, setDiag, advCost]

lemma advCost_loss_lb (yv : ℕ → ℕ → ℚ) (vv : ℕ → ℤ)
    (h : satisfiesModel 3 yv vv) : sentinel ≤ loss 3 (setDiag 3 advCost) yv := by
  have hOut1 := feasible_degOut 3 yv vv h 1 (by norm_num)
  have hIn1 := feasible_degIn 3 yv vv h 1 (by norm_num)
  rw [range3_eq] at hOut1 hIn1
  simp only [List.map_cons, List.map_nil, List.sum_cons, List.sum_nil, add_zero]
    at hOut1 hIn1
  have h00 := feasible_x_nonneg 3 yv vv h 0 0 (by norm_num) (by norm_num)
  have h01 := feasible_x_nonneg 3 yv vv h 0 1 (by norm_num) (by norm_num)
  have h02 := feasible_x_nonneg 3 yv vv h 0 2 (by norm_num) (by norm_num)
  have h10 := feasible_x_nonneg 3 yv vv h 1 0 (by norm_num) (by norm_num)
  have h12 := feasible_x_nonneg 3 yv vv h 1 2 (by norm_num) (by norm_num)
  have h20 := feasible_x_nonneg 3 yv vv h 2 0 (by norm_num) (by norm_num)
  have h21 := feasible_x_nonneg 3 yv vv h 2 1 (by norm_num) (by norm_num)
  have h22 := feasible_x_nonneg 3 yv vv h 2 2 (by norm_num) (by norm_num)
  rw [loss, xKeys3_eq]
  simp only [List.map_cons, List.map_nil, List.sum_cons, List.sum_nil, add_zero]
  rcases feasible_binary 3 yv vv h 1 1 (by norm_num) (by norm_num) with h11 | h11 <;>
    rw [h11] at hOut1 hIn1 ⊢ <;>
    norm_num [setDiag, advCost, sentinel] <;>
    linarith

lemma selfX3_optimal : isOptimal 3 (setDiag 3 advCost) selfX3 zeroU := by
  refine ⟨selfX3_feasible, ?_⟩
  intro yv vv hyv
  rw [selfX3_loss]
  exact advCost_loss_lb yv vv hyv

/-! ### Shared lemmas about the tour extractor -/

lemma mem_get_edges (xs : List ((ℕ × ℕ) × ℚ)) (k : ℕ × ℕ) :
    k ∈ get_edges xs ↔ ∃ v, (k, v) ∈ xs ∧ v = 1 := by
  simp only [get_edges, List.mem_map, List.mem_filter, decide_eq_true_eq]
  constructor
  · rintro ⟨⟨k', v⟩, ⟨hmem, hv⟩, rfl⟩
    exact ⟨v, hmem, hv⟩
  · rintro ⟨v, hmem, hv⟩
    exact ⟨(k, v), ⟨hmem, hv⟩, rfl⟩

lemma costMatrix2_dConst : costMatrix 2 dConst = some [[1, 1], [1, 1]] := by
  norm_num [costMatrix, optMap, dConst, range2_eq, Option.bind]

/-! ### Claims -/

/-- C1 (amended): the model contains the MTZ constraint
`u[i] - u[j] + n·x[i,j] ≤ n-1` for every ordered pair `i ≠ j` with
`i, j ∈ [1,n)`; these constraints forbid every selected cycle of two or
more nodes avoiding node `0` (but not self-arc cycles, see the
counterexample); and every Hamiltonian visiting sequence through all
`n` nodes admits a feasible rank assignment satisfying the rank bounds
and the MTZ constraints. -/
theorem C1_mtz_subtour_elimination :
    (∀ n i j, 1 ≤ i → i < n → 1 ≤ j → j < n → i ≠ j →
        Constr.mtz i j ∈ modelConstraints n) ∧
    (∀ n (xv : ℕ → ℕ → ℚ) (uv : ℕ → ℤ) (l : List ℕ), satisfiesModel n xv uv →
        2 ≤ l.length → ¬ IsSelectedCycleAvoiding0 n xv l) ∧
    (∀ n (p : ℕ → ℕ), 1 ≤ n → HamSeq n p →
        rankFeasible n (xOfSeq n p) (uOfSeq n p)) := by
  refine ⟨?_, ?_, ?_⟩
  · intro n i j hi1 hin hj1 hjn hij
    exact mtz_mem n i j hi1 hin hj1 hjn hij
  · intro n xv uv l hfeas hlen hcyc
    exact no_selected_cycle_of_length_ge_two n xv uv hfeas l hlen hcyc
  · intro n p hn hham
    exact hamSeq_rankFeasible n p hn hham

/-- C1 counterexample: the claim as stated is false — the feasible
assignment `selfX3` (for `n = 3`) selects the self-arc at node `1`,
whose single-node cycle `[1]` avoids node `0`, so the constraints do
not forbid every cycle avoiding node `0`. -/
theorem C1_counterexample :
    satisfiesModel 3 selfX3 zeroU ∧ IsSelectedCycleAvoiding0 3 selfX3 [1] := by
  refine ⟨selfX3_feasible, ?_, by decide, ?_, ?_⟩
  · simp
  · intro v hv
    simp only [List.mem_singleton] at hv
    omega
  · intro pq hpq
    have : pq = (1, 1) := by simpa [cycArcs, arcsFrom] using hpq
    rw [this]
    norm_num [selfX3]

/-- C1 witness: the three parts of the theorem instantiated at `n = 3`:
the MTZ constraint for the pair `(1,2)` is in the model, the canonical
tour admits no selected 2-cycle `[1,2]`, and the identity visiting
sequence has a feasible rank assignment. -/
theorem C1_witness :
    Constr.mtz 1 2 ∈ modelConstraints 3 ∧
    ¬ IsSelectedCycleAvoiding0 3 (tourX 3) [1, 2] ∧
    rankFeasible 3 (xOfSeq 3 idSeq) (uOfSeq 3 idSeq) :=
  ⟨C1_mtz_subtour_elimination.1 3 1 2 (by decide) (by decide) (by decide) (by decide)
      (by decide),
    C1_mtz_subtour_elimination.2.1 3 (tourX 3) tourU [1, 2] (tour_feasible 3) (by decide),
    C1_mtz_subtour_elimination.2.2 3 idSeq (by decide) (idSeq_ham 3)⟩

/-- C2 (amended): the model contains, for every node `i`, the
out-degree constraint `Σ_{j ∈ [0,n)} x[i,j] = 1` and the in-degree
constraint `Σ_{i ∈ [0,n)} x[i,j] = 1`, where the sums range over ALL
`j` (resp. `i`), the diagonal term included; consequently every
feasible assignment — in particular any optimal one — selects exactly
one out-arc and one in-arc at every node, self-arcs counted. -/
theorem C2_degree_constraints (n : ℕ) (xv : ℕ → ℕ → ℚ) (uv : ℕ → ℤ)
    (h : satisfiesModel n xv uv) (i : ℕ) (hi : i < n) :
    Constr.degOut i ∈ modelConstraints n ∧ Constr.degIn i ∈ modelConstraints n ∧
    selectedOutCount n xv i = 1 ∧ selectedInCount n xv i = 1 := by
  refine ⟨degOut_mem n i hi, degIn_mem n i hi, ?_, ?_⟩
  · have hbin : ∀ a ∈ lbl n, xv i a = 0 ∨ xv i a = 1 :=
      fun a ha => h.1 i (by simpa [lbl] using hi) a ha
    have hsum := feasible_degOut n xv uv h i hi
    have hcount := sum_count_of_binary (lbl n) (fun j => xv i j) hbin
    rw [show (lbl n) = List.range n from rfl] at hcount
    rw [hsum] at hcount
    have : (selectedOutCount n xv i : ℚ) = 1 := by
      rw [selectedOutCount]
      exact hcount.symm
    exact_mod_cast this
  · have hbin : ∀ a ∈ lbl n, xv a i = 0 ∨ xv a i = 1 :=
      fun a ha => h.1 a ha i (by simpa [lbl] using hi)
    have hsum := feasible_degIn n xv uv h i hi
    have hcount := sum_count_of_binary (lbl n) (fun a => xv a i) hbin
    rw [show (lbl n) = List.range n from rfl] at hcount
    rw [hsum] at hcount
    have : (selectedInCount n xv i : ℚ) = 1 := by
      rw [selectedInCount]
      exact hcount.symm
    exact_mod_cast this

/-- C2 counterexample: the claim as stated is false — the model's
out-degree constraint sums over ALL `j` including `j = i`, so the
all-self-arcs assignment `diagX` is feasible for `n = 2` although its
sum of `x[0,j]` over `j ≠ 0` is `0`, not `1`: no constraint of the
model forces the claimed `j ≠ i` sum to equal `1`. -/
theorem C2_counterexample :
    satisfiesModel 2 diagX zeroU ∧
    ¬ (((exclude (lbl 2) 0).map (fun j => diagX 0 j)).sum = 1) := by
  refine ⟨diagX_feasible, ?_⟩
  norm_num [exclude, lbl, range2_eq, diagX, List.filter_cons]

/-- C2 witness: the theorem instantiated at the canonical 2-node tour:
both degree constraints are in the model and node `0` has exactly one
selected out-arc and in-arc. -/
theorem C2_witness :
    Constr.degOut 0 ∈ modelConstraints 2 ∧ Constr.degIn 0 ∈ modelConstraints 2 ∧
    selectedOutCount 2 (tourX 2) 0 = 1 ∧ selectedInCount 2 (tourX 2) 0 = 1 :=
  C2_degree_constraints 2 (tourX 2) zeroU tourX2_feasible 0 (by decide)

/-- C3 (amended): the integer rank variables `u[i]` are declared for
EVERY `i ∈ [0,n)` — node `0` included — with declared lower bound `0`
(not `1`), and the model adds `u[i] ≤ n-1` for every `i`; hence every
feasible assignment satisfies `0 ≤ u[i] ≤ n-1`, and nothing in the
model forces `1 ≤ u[i]`. -/
theorem C3_rank_variables (n : ℕ) :
    (∀ i, i ∈ uKeys n ↔ i < n) ∧
    (∀ i, i < n → Constr.uUb i ∈ modelConstraints n) ∧
    (∀ (xv : ℕ → ℕ → ℚ) (uv : ℕ → ℤ), satisfiesModel n xv uv →
      ∀ i, i < n → 0 ≤ uv i ∧ uv i ≤ (n : ℤ) - 1) := by
  refine ⟨?_, ?_, ?_⟩
  · intro i
    simp [uKeys, lbl]
  · intro i hi
    exact uUb_mem n i hi
  · intro xv uv h i hi
    refine ⟨h.2.1 i (by simpa [lbl] using hi), ?_⟩
    exact h.2.2 (Constr.uUb i) (uUb_mem n i hi)

/-- C3 counterexample: the claim as stated is false — `u[0]` is
declared (`0 ∈ uKeys 2`), and the model does not bound `u` below by
`1`: the canonical 2-node tour together with the all-zero rank
assignment is feasible, yet `u[1] = 0 < 1`. -/
theorem C3_counterexample :
    0 ∈ uKeys 2 ∧ satisfiesModel 2 (tourX 2) zeroU ∧ zeroU 1 = 0 :=
  ⟨by decide, tourX2_feasible, rfl⟩

/-- C3 witness: the theorem instantiated at `n = 2` and the canonical
tour: `1` is a declared rank key and `0 ≤ u[1] ≤ 1` holds there. -/
theorem C3_witness :
    (1 ∈ uKeys 2) ∧ 0 ≤ zeroU 1 ∧ zeroU 1 ≤ (2 : ℤ) - 1 :=
  ⟨((C3_rank_variables 2).1 1).2 (by decide),
    ((C3_rank_variables 2).2.2 (tourX 2) zeroU tourX2_feasible 1 (by decide)).1,
    ((C3_rank_variables 2).2.2 (tourX 2) zeroU tourX2_feasible 1 (by decide)).2⟩

/-- C4 (amended): the objective is the sum of `x[i,j]·M[i][j]` over ALL
ordered pairs, the diagonal included: it equals the spec's `i ≠ j` sum
plus the self-arc terms `Σ_i x[i,i]·M[i][i]`. -/
theorem C4_objective_decomposition (n : ℕ) (c xv : ℕ → ℕ → ℚ) :
    loss n c xv = lossNoDiag n c xv + lossDiag n c xv :=
  loss_split n c xv

/-- C4 counterexample: the claim as stated is false — at `n = 2`, with
the pipeline's cost matrix over the all-ones base costs and the
feasible all-self-arcs assignment, the objective is `2·sentinel` while
the claimed `i ≠ j` sum is `0`: the self-arc terms do appear in the
minimized expression. -/
theorem C4_counterexample :
    loss 2 (setDiag 2 oneCost) diagX ≠ lossNoDiag 2 (setDiag 2 oneCost) diagX := by
  have hx : xKeys 2 = [(0, 0), (0, 1), (1, 0), (1, 1)] := rfl
  rw [loss, lossNoDiag, hx]
  norm_num [diagX, setDiag, oneCost, sentinel, List.filter_cons]

/-- C5 (amended): the cost matrix used in the objective carries the
sentinel `1e12` on its whole diagonal; and whenever the off-diagonal
entries are nonnegative and bounded by some `B` with `n·B < 1e12` (the
sentinel strictly dominating the off-diagonal maximum alone is NOT
enough, see the counterexample), no optimal solution selects a
self-arc. -/
theorem C5_sentinel_blocks_self_arcs (n : ℕ) (c : ℕ → ℕ → ℚ) (B : ℚ)
    (hn : 2 ≤ n)
    (hc : ∀ i j, i < n → j < n → i ≠ j → 0 ≤ c i j ∧ c i j ≤ B)
    (hB : (n : ℚ) * B < sentinel) :
    (∀ i, i < n → setDiag n c i i = sentinel ∧
      ∀ j, j < n → j ≠ i → setDiag n c i j < setDiag n c i i) ∧
    (∀ (xv : ℕ → ℕ → ℚ) (uv : ℕ → ℤ), isOptimal n (setDiag n c) xv uv →
      ∀ i, i < n → xv i i = 0) := by
  have hB0 : 0 ≤ B := le_trans (hc 0 1 (by omega) (by omega) (by omega)).1
    (hc 0 1 (by omega) (by omega) (by omega)).2
  have hnq : (1 : ℚ) ≤ (n : ℚ) := by
    have : (1 : ℕ) ≤ n := by omega
    exact_mod_cast this
  have hBs : B < sentinel :=
    lt_of_le_of_lt (le_mul_of_one_le_left hB0 hnq) hB
  have hdiag : ∀ i, i < n → setDiag n c i i = sentinel := by
    intro i hi
    simp [setDiag, hi]
  refine ⟨?_, ?_⟩
  · intro i hi
    refine ⟨hdiag i hi, ?_⟩
    intro j hj hji
    rw [hdiag i hi]
    have : setDiag n c i j = c i j := by
      simp only [setDiag]
      rw [if_neg]
      intro hcon
      exact hji hcon.1.symm
    rw [this]
    exact lt_of_le_of_lt (hc i j hi hj (fun h => hji h.symm)).2 hBs
  · intro xv uv hopt i hi
    rcases feasible_binary n xv uv hopt.1 i i hi hi with h0 | h1
    · exact h0
    · exfalso
      have hub : loss n (setDiag n c) xv ≤ loss n (setDiag n c) (tourX n) :=
        hopt.2 (tourX n) tourU (tour_feasible n)
      have htour : loss n (setDiag n c) (tourX n) ≤ (n : ℚ) * B :=
        loss_tour_le n c B hn (fun a b ha hb hab => (hc a b ha hb hab).2)
      have hMnn : ∀ a b, a < n → b < n → 0 ≤ setDiag n c a b := by
        intro a b ha hb
        by_cases hab : a = b
        · subst hab
          rw [hdiag a ha]
          norm_num [sentinel]
        · have : setDiag n c a b = c a b := by
            simp only [setDiag]
            rw [if_neg]
            intro hcon
            exact hab hcon.1
          rw [this]
          exact (hc a b ha hb hab).1
      have hxnn : ∀ a b, a < n → b < n → 0 ≤ xv a b :=
        fun a b ha hb => feasible_x_nonneg n xv uv hopt.1 a b ha hb
      have hlb : sentinel ≤ loss n (setDiag n c) xv := by
        have := loss_term_le n (setDiag n c) xv hMnn hxnn i i hi hi
        rw [h1, one_mul, hdiag i hi] at this
        exact this
      linarith

/-- C5 counterexample: the claim as stated is false — for `n = 3` and
the pipeline matrix over `advCost`, every diagonal entry strictly
dominates every off-diagonal entry of its row, yet `selfX3`, which
selects the self-arc `x[1,1] = 1`, is an optimal solution. -/
theorem C5_counterexample :
    isOptimal 3 (setDiag 3 advCost) selfX3 zeroU ∧ selfX3 1 1 = 1 ∧
    setDiag 3 advCost 0 1 < setDiag 3 advCost 0 0 ∧
    setDiag 3 advCost 0 2 < setDiag 3 advCost 0 0 ∧
    setDiag 3 advCost 1 0 < setDiag 3 advCost 1 1 ∧
    setDiag 3 advCost 1 2 < setDiag 3 advCost 1 1 ∧
    setDiag 3 advCost 2 0 < setDiag 3 advCost 2 2 ∧
    setDiag 3 advCost 2 1 < setDiag 3 advCost 2 2 := by
  refine ⟨selfX3_optimal, by norm_num [selfX3], ?_, ?_, ?_, ?_, ?_, ?_⟩ <;>
    norm_num [setDiag, advCost, sentinel]

/-- C5 witness: the theorem instantiated at `n = 3` with the all-ones
base costs (`B = 1`): the diagonal carries the sentinel and strictly
dominates an off-diagonal entry. -/
theorem C5_witness :
    setDiag 3 oneCost 1 1 = sentinel ∧ setDiag 3 oneCost 0 1 < setDiag 3 oneCost 0 0 := by
  have h := C5_sentinel_blocks_self_arcs 3 oneCost 1 (by norm_num)
    (fun i j _ _ _ => by norm_num [oneCost]) (by norm_num [sentinel])
  exact ⟨(h.1 1 (by norm_num)).1,
    (h.1 0 (by norm_num)).2 1 (by norm_num) (by norm_num)⟩

/-- C6 (amended): model building is a total function with no size check
and no failure path: for `n = 1` it succeeds and produces a degenerate
model whose unique feasible point sets `x[0,0] = 1` and `u[0] = 0`. -/
theorem C6_build_never_fails (xv : ℕ → ℕ → ℚ) (uv : ℕ → ℤ) :
    satisfiesModel 1 xv uv ↔ (xv 0 0 = 1 ∧ uv 0 = 0) := by
  have hmc : modelConstraints 1 = [Constr.degOut 0, Constr.degIn 0, Constr.uUb 0] := by
    decide
  have hr : List.range 1 = [0] := rfl
  constructor
  · intro h
    have h1 := h.2.2 (Constr.degOut 0) (by rw [hmc]; simp)
    simp only [holdsC, lbl, hr, List.map_cons, List.map_nil, List.sum_cons,
      List.sum_nil, add_zero] at h1
    have h2 := h.2.2 (Constr.uUb 0) (by rw [hmc]; simp)
    simp only [holdsC] at h2
    have h3 := h.2.1 0 (by simp [lbl, hr])
    exact ⟨h1, by omega⟩
  · rintro ⟨hx, hu⟩
    refine ⟨?_, ?_, ?_⟩
    · intro i hi j hj
      simp only [lbl, hr, List.mem_singleton] at hi hj
      subst hi
      subst hj
      right
      exact hx
    · intro i hi
      simp only [lbl, hr, List.mem_singleton] at hi
      subst hi
      simp [hu]
    · rw [hmc]
      simp [List.forall_mem_cons, holdsC, lbl, hr, hx, hu]

/-- C6 counterexample: the claim as stated is false — for `n = 1` and
`n = 0` the notebook's model building succeeds and returns a model; no
`InfeasibleModelSize` (or any other) failure exists in the code. -/
theorem C6_counterexample :
    buildModel 1 = ([(0, 0)], [0], [Constr.degOut 0, Constr.degIn 0, Constr.uUb 0]) ∧
    buildModel 0 = ([], [], []) := by
  constructor <;> rfl

/-- C7 (amended): `get_edges` selects exactly the pairs whose solved
value equals `1` exactly; a merely-close fractional value is not
selected. -/
theorem C7_get_edges_exact_equality (xs : List ((ℕ × ℕ) × ℚ)) (k : ℕ × ℕ) :
    k ∈ get_edges xs ↔ ∃ v, (k, v) ∈ xs ∧ v = 1 :=
  mem_get_edges xs k

/-- C7 counterexample: the claim as stated is false — the solved value
`999/1000` of the key `(0,1)` exceeds the claimed tolerance `1/2`, yet
`get_edges` selects nothing, because the code compares with exact
equality to `1`. -/
theorem C7_counterexample :
    get_edges xsFrac = [] ∧ ((0, 1), (999 : ℚ) / 1000) ∈ xsFrac ∧
    (1 : ℚ) / 2 < 999 / 1000 := by
  refine ⟨?_, by simp [xsFrac], by norm_num⟩
  norm_num [get_edges, xsFrac, List.filter_cons]

/-- C8 (amended): the extraction stage is a total function: the
selected edges are handed to the graph constructor as-is — membership
in the resulting edge set is exactly "solved value equals 1", the edge
set carries no duplicates, and no walk, no degree validation and no
`MalformedSolution` failure exist in the code. -/
theorem C8_extraction_never_validates (xs : List ((ℕ × ℕ) × ℚ)) :
    (∀ e : ℕ × ℕ, e ∈ graphEdges xs ↔ ∃ v, (e, v) ∈ xs ∧ v = 1) ∧
    (graphEdges xs).Nodup := by
  constructor
  · intro e
    rw [graphEdges, List.mem_dedup]
    exact mem_get_edges xs e
  · exact List.nodup_dedup _

/-- C8 counterexample: the claim as stated is false — on a solved
assignment whose selected edges give node `0` out-degree `2` and node
`2` out-degree `0`, the pipeline does not fail: it returns the
malformed edge set unchanged (and draws it). -/
theorem C8_counterexample :
    graphEdges xsBad = [(0, 1), (0, 2), (1, 0)] ∧
    outDegE (graphEdges xsBad) 0 = 2 ∧ outDegE (graphEdges xsBad) 2 = 0 := by
  have h : graphEdges xsBad = [(0, 1), (0, 2), (1, 0)] := by
    norm_num [graphEdges, get_edges, xsBad, List.filter_cons, List.dedup_cons_of_not_mem]
  refine ⟨h, ?_, ?_⟩ <;> rw [h] <;> decide

/-- C9 (amended): after the cost matrix is built, exactly one later
mutation happens — the objective-construction stage overwrites every
diagonal entry with the sentinel `1e12` in place; off-diagonal entries
are never changed. -/
theorem C9_diagonal_overwritten_after_build (n : ℕ) (d : ℕ → ℕ → Option ℕ)
    (M : List (List ℚ)) (h : costMatrix n d = some M) (i j : ℕ)
    (hi : i < n) (hj : j < n) :
    (i ≠ j → entryL (setDiagL M) i j = entryL M i j) ∧
    (i = j → entryL (setDiagL M) i j = sentinel) := by
  constructor
  · intro hij
    exact setDiagL_offdiag M i j hij
  · intro hij
    subst hij
    apply setDiagL_diag
    rw [costMatrix_rowLength n d M h i hi]
    exact hi

/-- C9 counterexample: the claim as stated is false — with the
constant lookup `dConst` the built matrix has `M[0][0] = 1`, but after
the later pipeline stages (the diagonal overwrite during objective
construction) the entry `M[0][0]` is the sentinel, not `1`. -/
theorem C9_counterexample :
    costMatrix 2 dConst = some [[1, 1], [1, 1]] ∧
    entryL [[1, 1], [1, 1]] 0 0 = 1 ∧
    entryL (setDiagL [[1, 1], [1, 1]]) 0 0 = sentinel ∧ (1 : ℚ) ≠ sentinel := by
  refine ⟨costMatrix2_dConst, by norm_num [entryL], ?_, by norm_num [sentinel]⟩
  norm_num [entryL, setDiagL, setDiagAux, sentinel, List.set]

/-- C9 witness: the theorem instantiated at the concrete build over
`dConst`: the off-diagonal entry `(0,1)` is preserved and the diagonal
entry `(1,1)` becomes the sentinel. -/
theorem C9_witness :
    entryL (setDiagL [[1, 1], [1, 1]]) 0 1 = entryL [[1, 1], [1, 1]] 0 1 ∧
    entryL (setDiagL [[1, 1], [1, 1]]) 1 1 = sentinel := by
  have h := C9_diagonal_overwritten_after_build 2 dConst [[1, 1], [1, 1]]
    costMatrix2_dConst
  exact ⟨(h 0 1 (by decide) (by decide)).1 (by decide),
    (h 1 1 (by decide) (by decide)).2 rfl⟩

/-- C10: the matrix-filling loop queries the external lookup for all
`n²` ordered pairs including every self-pair: on success every entry —
the diagonal included — holds the fetched seconds divided by `3600`,
the diagonal being overwritten with the sentinel only later; and a
failing lookup on a self-pair aborts the whole build even though the
value would ultimately be discarded. -/
theorem C10_self_pairs_queried :
    (∀ n (d : ℕ → ℕ → Option ℕ) M, costMatrix n d = some M → ∀ i j, i < n → j < n →
        ∃ v, d i j = some v ∧ entryL M i j = (v : ℚ) / 3600) ∧
    (∀ n (d : ℕ → ℕ → Option ℕ) M, costMatrix n d = some M → ∀ i, i < n →
        entryL (setDiagL M) i i = sentinel) ∧
    (∀ n (d : ℕ → ℕ → Option ℕ) i, i < n → d i i = none → costMatrix n d = none) := by
  refine ⟨?_, ?_, ?_⟩
  · intro n d M h i j hi hj
    exact costMatrix_entry n d M h i j hi hj
  · intro n d M h i hi
    apply setDiagL_diag
    rw [costMatrix_rowLength n d M h i hi]
    exact hi
  · intro n d i hi hd
    exact costMatrix_abort n d i hi hd

/-- C10 witness: the theorem instantiated at concrete lookups: the
self-pair `(0,0)` is fetched and stored as `3600/3600`, its entry is
later the sentinel, and the always-failing lookup aborts the build. -/
theorem C10_witness :
    (∃ v, dConst 0 0 = some v ∧ entryL [[1, 1], [1, 1]] 0 0 = (v : ℚ) / 3600) ∧
    entryL (setDiagL [[1, 1], [1, 1]]) 0 0 = sentinel ∧
    costMatrix 1 dNone = none :=
  ⟨C10_self_pairs_queried.1 2 dConst [[1, 1], [1, 1]] costMatrix2_dConst 0 0
      (by decide) (by decide),
    C10_self_pairs_queried.2.1 2 dConst [[1, 1], [1, 1]] costMatrix2_dConst 0 (by decide),
    C10_self_pairs_queried.2.2 1 dNone 0 (by decide) rfl⟩
